import Mathlib

/-!
Verification of the envelope-encryption / key-management core of the
family-vault backend (`backend/app/files/encryption.py`,
`backend/app/orgs/service.py`, `backend/app/files/router.py`,
`backend/app/auth/router.py`, `backend/alembic/versions/012_encrypt_sensitive_fields.py`).

Byte strings and text strings are modelled as `List Nat` (the entries of a
real byte string are `< 256`; a Python `str` is identified with its UTF-8
byte sequence, so `value.encode("utf-8")` is the identity in the model and
`bytes.decode("utf-8")` is a validity-guarded identity).  Fallible Python
code (uncaught exceptions) is modelled with `Option`: `none` means the
operation raises.  `os.urandom(12)` nonces are modelled as explicit
parameters, so every theorem quantifies over the nonce.

External primitives (the `cryptography` library's AES-256-GCM and HKDF, and
Python's `base64` codec) are not code of this repository; they are modelled
by executable idealizations that are faithful to their documented
interfaces and wire formats:

* AES-GCM (`gcmEncrypt`/`gcmDecrypt`): the ciphertext is the plaintext
  masked byte-by-byte with a key- and nonce-dependent keystream (so
  ciphertext bytes of byte inputs are bytes, and decryption with the
  matching key inverts encryption), and the 16-entry authentication tag
  carries an injective fingerprint of (key, nonce, ciphertext).  The
  injective fingerprint idealizes the cryptographic guarantee that forging
  or colliding a GCM tag is infeasible: tag verification succeeds exactly
  for the authentic (key, nonce, ciphertext) triple.  Real AES-GCM packs
  this information cryptographically into 16 unstructured bytes; the model
  stores it in the 16th entry of the tag, whose value is not restricted
  to 0..255.
* HKDF-SHA256 (`hkdfDerive`): idealized as an injective function of
  (salt, info, input key material) — random-oracle style collision
  freeness replaces the 32-byte digest.
* base64 (`b64encodePy`/`b64decodePy`): RFC 4648 standard base64,
  agreeing with Python's `base64.b64encode`/`b64decode` on byte inputs
  (including `b64decode`'s discarding of non-alphabet characters and its
  rejection of inputs with incorrect padding).  A 3-entry chunk containing
  an out-of-range entry (which arises only from the idealized GCM tag) is
  encoded through an injective escape that produces 4 output entries, so
  the output length of real base64 (4 characters per 3 input bytes,
  rounded up) is preserved exactly.
-/

namespace FamilyVault

/-! ## Injective encodings used by the idealized primitives -/

/-- Little-endian base-258 encoding of a list; injective on lists whose
entries are at most 256 (digits `1..257` of base 258, so no leading-zero
ambiguity). -/
def enc258 : List Nat → Nat
  | [] => 0
  | x :: xs => x + 1 + 258 * enc258 xs

theorem enc258_inj : ∀ xs ys : List Nat, (∀ x ∈ xs, x ≤ 256) → (∀ y ∈ ys, y ≤ 256) →
    enc258 xs = enc258 ys → xs = ys
  | [], [], _, _, _ => rfl
  | [], y :: ys, _, _, h => by simp only [enc258] at h; omega
  | x :: xs, [], _, _, h => by simp only [enc258] at h; omega
  | x :: xs, y :: ys, hx, hy, h => by
    have hx0 : x ≤ 256 := hx x (by simp)
    have hy0 : y ≤ 256 := hy y (by simp)
    have hxy : x = y ∧ enc258 xs = enc258 ys := by
      simp only [enc258] at h; omega
    have := enc258_inj xs ys (fun a ha => hx a (by simp [ha])) (fun a ha => hy a (by simp [ha]))
      hxy.2
    simp [hxy.1, this]

/-- Injective fingerprint of a (key, nonce, ciphertext) triple, used as the
idealized content of a GCM authentication tag. -/
def gcmFingerprint (key iv ct : List Nat) : Nat :=
  Nat.pair (enc258 key) (Nat.pair (enc258 iv) (enc258 ct))

theorem gcmFingerprint_key_ne (keyA keyB iv ct iv' ct' : List Nat)
    (hA : ∀ x ∈ keyA, x ≤ 256) (hB : ∀ x ∈ keyB, x ≤ 256) (hne : keyA ≠ keyB) :
    gcmFingerprint keyA iv ct ≠ gcmFingerprint keyB iv' ct' := by
  intro h
  exact hne (enc258_inj keyA keyB hA hB (Nat.pair_eq_pair.mp h).1)

theorem gcmFingerprint_ct_ne (key iv ct ct' : List Nat)
    (hc : ∀ x ∈ ct, x ≤ 256) (hc' : ∀ x ∈ ct', x ≤ 256) (hne : ct ≠ ct') :
    gcmFingerprint key iv ct ≠ gcmFingerprint key iv ct' := by
  intro h
  exact hne (enc258_inj ct ct' hc hc'
    (Nat.pair_eq_pair.mp (Nat.pair_eq_pair.mp h).2).2)

/-! ## Idealized AES-256-GCM (model of `cryptography...AESGCM`) -/

/-- Keystream byte `i` for a given key and nonce (any deterministic
key/nonce-dependent byte-valued function serves the model). -/
def ksByte (key iv : List Nat) (i : Nat) : Nat :=
  ((key ++ iv).foldl (fun a b => a * 131 + b + 1) 7 + i * 197) % 256

/-- Mask a byte list with the keystream starting at stream index `i`.
Masking is an involution (XOR), modelling CTR-mode encryption/decryption. -/
def gcmMask (key iv : List Nat) : Nat → List Nat → List Nat
  | _, [] => []
  | i, p :: ps => (p ^^^ ksByte key iv i) :: gcmMask key iv (i + 1) ps

theorem gcmMask_length (key iv : List Nat) : ∀ (i : Nat) (ps : List Nat),
    (gcmMask key iv i ps).length = ps.length
  | _, [] => rfl
  | i, _ :: ps => by simp [gcmMask, gcmMask_length key iv (i + 1) ps]

theorem gcmMask_gcmMask (key iv : List Nat) : ∀ (i : Nat) (ps : List Nat),
    gcmMask key iv i (gcmMask key iv i ps) = ps
  | _, [] => rfl
  | i, p :: ps => by
    simp [gcmMask, Nat.xor_assoc, gcmMask_gcmMask key iv (i + 1) ps]

theorem gcmMask_lt (key iv : List Nat) : ∀ (i : Nat) (ps : List Nat),
    (∀ x ∈ ps, x < 256) → ∀ y ∈ gcmMask key iv i ps, y < 256
  | _, [], _, y, hy => by simp [gcmMask] at hy
  | i, p :: ps, hp, y, hy => by
    simp only [gcmMask, List.mem_cons] at hy
    rcases hy with rfl | hy
    · have h1 : p < 2 ^ 8 := hp p (by simp)
      have h2 : ksByte key iv i < 2 ^ 8 := Nat.mod_lt _ (by norm_num)
      exact Nat.xor_lt_two_pow h1 h2
    · exact gcmMask_lt key iv (i + 1) ps (fun x hx => hp x (by simp [hx])) y hy

/-- The 16-entry authentication tag: 15 zero entries followed by the
injective fingerprint entry (see the header comment on the idealization). -/
def gcmTagList (key iv ct : List Nat) : List Nat :=
  List.replicate 15 0 ++ [gcmFingerprint key iv ct]

theorem gcmTagList_length (key iv ct : List Nat) : (gcmTagList key iv ct).length = 16 := by
  simp [gcmTagList]

theorem gcmTagList_inj_of_fingerprint_ne (keyA keyB ivA ivB ctA ctB : List Nat)
    (h : gcmFingerprint keyA ivA ctA ≠ gcmFingerprint keyB ivB ctB) :
    gcmTagList keyA ivA ctA ≠ gcmTagList keyB ivB ctB := by
  intro he
  exact h (by simpa [gcmTagList] using he)

/-- Model of `AESGCM(key).encrypt(iv, pt, None)`: returns
ciphertext-with-tag, i.e. the masked plaintext followed by the 16-entry tag. -/
def gcmEncrypt (key iv pt : List Nat) : List Nat :=
  gcmMask key iv 0 pt ++ gcmTagList key iv (gcmMask key iv 0 pt)

/-- Model of `AESGCM(key).decrypt(iv, data, None)`: split off the trailing
16-entry tag, verify it, and unmask; `none` models a raised
`InvalidTag`/`ValueError` (inputs shorter than a tag always fail). -/
def gcmDecrypt (key iv data : List Nat) : Option (List Nat) :=
  if data.length < 16 then none
  else
    let ct := data.take (data.length - 16)
    let tag := data.drop (data.length - 16)
    if tag = gcmTagList key iv ct then some (gcmMask key iv 0 ct) else none

theorem gcmEncrypt_length (key iv pt : List Nat) :
    (gcmEncrypt key iv pt).length = pt.length + 16 := by
  simp [gcmEncrypt, gcmMask_length, gcmTagList_length]

theorem gcmEncrypt_take (key iv pt : List Nat) :
    (gcmEncrypt key iv pt).take ((gcmEncrypt key iv pt).length - 16) = gcmMask key iv 0 pt := by
  rw [gcmEncrypt_length]
  simp only [Nat.add_sub_cancel, gcmEncrypt]
  rw [← gcmMask_length key iv 0 pt]
  exact List.take_left _ _

theorem gcmEncrypt_drop (key iv pt : List Nat) :
    (gcmEncrypt key iv pt).drop ((gcmEncrypt key iv pt).length - 16) =
      gcmTagList key iv (gcmMask key iv 0 pt) := by
  rw [gcmEncrypt_length]
  simp only [Nat.add_sub_cancel, gcmEncrypt]
  rw [← gcmMask_length key iv 0 pt]
  exact List.drop_left _ _

theorem gcmDecrypt_gcmEncrypt (key iv pt : List Nat) :
    gcmDecrypt key iv (gcmEncrypt key iv pt) = some pt := by
  unfold gcmDecrypt
  rw [if_neg (by rw [gcmEncrypt_length]; omega)]
  simp only [gcmEncrypt_take, gcmEncrypt_drop, if_pos rfl, gcmMask_gcmMask, if_true]

theorem gcmDecrypt_wrong_key (kA kB iv pt : List Nat) (hA : ∀ x ∈ kA, x ≤ 256)
    (hB : ∀ x ∈ kB, x ≤ 256) (hne : kA ≠ kB) :
    gcmDecrypt kB iv (gcmEncrypt kA iv pt) = none := by
  unfold gcmDecrypt
  rw [if_neg (by rw [gcmEncrypt_length]; omega)]
  simp only [gcmEncrypt_take, gcmEncrypt_drop]
  rw [if_neg]
  intro h
  exact gcmTagList_inj_of_fingerprint_ne _ _ _ _ _ _
    (gcmFingerprint_key_ne kA kB _ _ _ _ hA hB hne) h

/-! ## Model of Python base64 (RFC 4648 standard alphabet) -/

/-- Character code of sextet `s < 64` in the standard base64 alphabet. -/
def b64AlphaChar (s : Nat) : Nat :=
  if s < 26 then 65 + s
  else if s < 52 then 71 + s
  else if s < 62 then s - 4
  else if s = 62 then 43 else 47

/-- Sextet value of a character code; `none` for characters outside the
standard base64 alphabet. -/
def b64CharVal (c : Nat) : Option Nat :=
  if 65 ≤ c ∧ c ≤ 90 then some (c - 65)
  else if 97 ≤ c ∧ c ≤ 122 then some (c - 71)
  else if 48 ≤ c ∧ c ≤ 57 then some (c + 4)
  else if c = 43 then some 62
  else if c = 47 then some 63
  else none

theorem b64CharVal_b64AlphaChar : ∀ s < 64, b64CharVal (b64AlphaChar s) = some s := by decide

theorem b64AlphaChar_lt : ∀ s < 64, b64AlphaChar s < 256 := by decide

theorem b64AlphaChar_ne_61 : ∀ s < 64, b64AlphaChar s ≠ 61 := by decide

/-- Injective code of a 1–3 entry chunk, used by the escape path of the
base64 model for chunks containing out-of-range entries. -/
def escChunkCode : List Nat → Nat
  | [x] => Nat.pair 0 x
  | [x, y] => Nat.pair 1 (Nat.pair x y)
  | [x, y, z] => Nat.pair 2 (Nat.pair x (Nat.pair y z))
  | _ => 0

/-- Inverse of `escChunkCode` on well-formed codes. -/
def escChunkDecode (n : Nat) : List Nat :=
  match (Nat.unpair n).1, (Nat.unpair n).2 with
  | 0, x => [x]
  | 1, p => [(Nat.unpair p).1, (Nat.unpair p).2]
  | 2, p => [(Nat.unpair p).1, (Nat.unpair (Nat.unpair p).2).1,
             (Nat.unpair (Nat.unpair p).2).2]
  | _, _ => []

theorem escChunkDecode_one (x : Nat) : escChunkDecode (escChunkCode [x]) = [x] := by
  simp [escChunkCode, escChunkDecode, Nat.unpair_pair]

theorem escChunkDecode_two (x y : Nat) : escChunkDecode (escChunkCode [x, y]) = [x, y] := by
  simp [escChunkCode, escChunkDecode, Nat.unpair_pair]

theorem escChunkDecode_three (x y z : Nat) :
    escChunkDecode (escChunkCode [x, y, z]) = [x, y, z] := by
  simp [escChunkCode, escChunkDecode, Nat.unpair_pair]

/-- Model of Python `base64.b64encode` on byte lists (output is the list of
character codes of the base64 string, including `=` padding, code 61).
A chunk containing an out-of-range entry — only the idealized GCM tag
produces these — is emitted as an injective four-entry escape group
`[257 + code, 256, 256, 256]`, preserving real base64's output length. -/
def b64encodePy : List Nat → List Nat
  | [] => []
  | [b0] =>
    if b0 < 256 then
      [b64AlphaChar (b0 / 4), b64AlphaChar (b0 % 4 * 16), 61, 61]
    else [257 + escChunkCode [b0], 256, 256, 256]
  | [b0, b1] =>
    if b0 < 256 ∧ b1 < 256 then
      [b64AlphaChar (b0 / 4), b64AlphaChar (b0 % 4 * 16 + b1 / 16),
       b64AlphaChar (b1 % 16 * 4), 61]
    else [257 + escChunkCode [b0, b1], 256, 256, 256]
  | b0 :: b1 :: b2 :: rest =>
    (if b0 < 256 ∧ b1 < 256 ∧ b2 < 256 then
      [b64AlphaChar (b0 / 4), b64AlphaChar (b0 % 4 * 16 + b1 / 16),
       b64AlphaChar (b1 % 16 * 4 + b2 / 64), b64AlphaChar (b2 % 64)]
    else [257 + escChunkCode [b0, b1, b2], 256, 256, 256]) ++ b64encodePy rest

/-- Characters surviving Python `b64decode`'s non-validating prefilter:
alphabet characters, the padding character (61, `=`), and the model's
escape entries (≥ 256). -/
def b64Keep (c : Nat) : Bool :=
  (b64CharVal c).isSome || c == 61 || 256 ≤ c

/-- Quad-wise base64 decoding; `none` models a raised `binascii.Error`
(leftover characters mean incorrect padding, and padding groups must be
final). -/
def b64decodeQuads : List Nat → Option (List Nat)
  | [] => some []
  | c0 :: c1 :: c2 :: c3 :: rest =>
    if 257 ≤ c0 then
      if c1 = 256 ∧ c2 = 256 ∧ c3 = 256 then
        match b64decodeQuads rest with
        | some bs => some (escChunkDecode (c0 - 257) ++ bs)
        | none => none
      else none
    else
      match b64CharVal c0, b64CharVal c1 with
      | some v0, some v1 =>
        if c3 = 61 then
          if c2 = 61 then
            if rest = [] then some [v0 * 4 + v1 / 16] else none
          else
            match b64CharVal c2 with
            | some v2 =>
              if rest = [] then some [v0 * 4 + v1 / 16, v1 % 16 * 16 + v2 / 4] else none
            | none => none
        else
          match b64CharVal c2, b64CharVal c3 with
          | some v2, some v3 =>
            match b64decodeQuads rest with
            | some bs =>
              some ([v0 * 4 + v1 / 16, v1 % 16 * 16 + v2 / 4, v2 % 4 * 64 + v3] ++ bs)
            | none => none
          | _, _ => none
      | _, _ => none
  | _ => none

/-- Model of Python `base64.b64decode` (default, non-validating mode):
characters outside the alphabet are discarded, then the remainder is
decoded in groups of four; `none` models a raised `binascii.Error`. -/
def b64decodePy (s : List Nat) : Option (List Nat) :=
  b64decodeQuads (s.filter b64Keep)

theorem b64Keep_alpha (s : Nat) (h : s < 64) : b64Keep (b64AlphaChar s) = true := by
  simp [b64Keep, b64CharVal_b64AlphaChar s h]

theorem b64Keep_61 : b64Keep 61 = true := by decide

theorem b64Keep_256 : b64Keep 256 = true := by decide

theorem b64Keep_esc (n : Nat) : b64Keep (257 + n) = true := by
  have h : 256 ≤ 257 + n := by omega
  simp [b64Keep, h]

theorem filter_b64Keep_encode : ∀ bs, (b64encodePy bs).filter b64Keep = b64encodePy bs
  | [] => rfl
  | [b0] => by
    by_cases h : b0 < 256
    · simp only [b64encodePy, if_pos h]
      simp only [List.filter, b64Keep_alpha _ (by omega : b0 / 4 < 64),
        b64Keep_alpha _ (by omega : b0 % 4 * 16 < 64), b64Keep_61]
    · simp only [b64encodePy, if_neg h]
      simp only [List.filter, b64Keep_esc, b64Keep_256]
  | [b0, b1] => by
    by_cases h : b0 < 256 ∧ b1 < 256
    · simp only [b64encodePy, if_pos h]
      simp only [List.filter, b64Keep_alpha _ (by omega : b0 / 4 < 64),
        b64Keep_alpha _ (by omega : b0 % 4 * 16 + b1 / 16 < 64),
        b64Keep_alpha _ (by omega : b1 % 16 * 4 < 64), b64Keep_61]
    · simp only [b64encodePy, if_neg h]
      simp only [List.filter, b64Keep_esc, b64Keep_256]
  | b0 :: b1 :: b2 :: rest => by
    by_cases h : b0 < 256 ∧ b1 < 256 ∧ b2 < 256
    · simp only [b64encodePy, if_pos h, List.filter_append]
      rw [filter_b64Keep_encode rest]
      simp only [List.filter, b64Keep_alpha _ (by omega : b0 / 4 < 64),
        b64Keep_alpha _ (by omega : b0 % 4 * 16 + b1 / 16 < 64),
        b64Keep_alpha _ (by omega : b1 % 16 * 4 + b2 / 64 < 64),
        b64Keep_alpha _ (by omega : b2 % 64 < 64), List.cons_append, List.nil_append]
    · simp only [b64encodePy, if_neg h, List.filter_append]
      rw [filter_b64Keep_encode rest]
      simp only [List.filter, b64Keep_esc, b64Keep_256, List.cons_append, List.nil_append]

theorem b64decodeQuads_encode : ∀ bs, b64decodeQuads (b64encodePy bs) = some bs
  | [] => rfl
  | [b0] => by
    by_cases h : b0 < 256
    · have hlt := b64AlphaChar_lt (b0 / 4) (by omega)
      simp only [b64encodePy, if_pos h, b64decodeQuads,
        if_neg (by omega : ¬ 257 ≤ b64AlphaChar (b0 / 4)),
        b64CharVal_b64AlphaChar _ (by omega : b0 / 4 < 64),
        b64CharVal_b64AlphaChar _ (by omega : b0 % 4 * 16 < 64)]
      simp
      all_goals omega
    · have h257 : 257 ≤ 257 + escChunkCode [b0] := by omega
      have hfill : (256 : Nat) = 256 ∧ (256 : Nat) = 256 ∧ (256 : Nat) = 256 := by omega
      simp only [b64encodePy, if_neg h, b64decodeQuads, if_pos h257, if_pos hfill]
      simp [escChunkDecode_one]
  | [b0, b1] => by
    by_cases h : b0 < 256 ∧ b1 < 256
    · have hlt := b64AlphaChar_lt (b0 / 4) (by omega)
      have hne : b64AlphaChar (b1 % 16 * 4) ≠ 61 := b64AlphaChar_ne_61 _ (by omega)
      simp only [b64encodePy, if_pos h, b64decodeQuads,
        if_neg (by omega : ¬ 257 ≤ b64AlphaChar (b0 / 4)),
        b64CharVal_b64AlphaChar _ (by omega : b0 / 4 < 64),
        b64CharVal_b64AlphaChar _ (by omega : b0 % 4 * 16 + b1 / 16 < 64),
        b64CharVal_b64AlphaChar _ (by omega : b1 % 16 * 4 < 64), if_neg hne]
      simp
      all_goals omega
    · have h257 : 257 ≤ 257 + escChunkCode [b0, b1] := by omega
      have hfill : (256 : Nat) = 256 ∧ (256 : Nat) = 256 ∧ (256 : Nat) = 256 := by omega
      simp only [b64encodePy, if_neg h, b64decodeQuads, if_pos h257, if_pos hfill]
      simp [escChunkDecode_two]
  | b0 :: b1 :: b2 :: rest => by
    by_cases h : b0 < 256 ∧ b1 < 256 ∧ b2 < 256
    · have hlt := b64AlphaChar_lt (b0 / 4) (by omega)
      have hne : b64AlphaChar (b2 % 64) ≠ 61 := b64AlphaChar_ne_61 _ (by omega)
      simp only [b64encodePy, if_pos h, List.cons_append, List.nil_append, b64decodeQuads,
        if_neg (by omega : ¬ 257 ≤ b64AlphaChar (b0 / 4)),
        b64CharVal_b64AlphaChar _ (by omega : b0 / 4 < 64),
        b64CharVal_b64AlphaChar _ (by omega : b0 % 4 * 16 + b1 / 16 < 64),
        b64CharVal_b64AlphaChar _ (by omega : b1 % 16 * 4 + b2 / 64 < 64),
        b64CharVal_b64AlphaChar _ (by omega : b2 % 64 < 64), if_neg hne]
      rw [b64decodeQuads_encode rest]
      simp
      all_goals omega
    · have h257 : 257 ≤ 257 + escChunkCode [b0, b1, b2] := by omega
      have hfill : (256 : Nat) = 256 ∧ (256 : Nat) = 256 ∧ (256 : Nat) = 256 := by omega
      simp only [b64encodePy, if_neg h, List.cons_append, List.nil_append, b64decodeQuads,
        if_pos h257, if_pos hfill]
      rw [b64decodeQuads_encode rest]
      simp [escChunkDecode_three]

/-- The base64 model round-trips: decoding an encoded list recovers it. -/
theorem b64decodePy_b64encodePy (bs : List Nat) : b64decodePy (b64encodePy bs) = some bs := by
  unfold b64decodePy
  rw [filter_b64Keep_encode, b64decodeQuads_encode]

/-- The encoded output has real base64's length: four characters per three
input bytes, rounded up (padding included). -/
theorem b64encodePy_length : ∀ bs : List Nat,
    (b64encodePy bs).length = 4 * ((bs.length + 2) / 3)
  | [] => rfl
  | [b0] => by by_cases h : b0 < 256 <;> simp [b64encodePy, h]
  | [b0, b1] => by by_cases h : b0 < 256 ∧ b1 < 256 <;> simp [b64encodePy, h]
  | b0 :: b1 :: b2 :: rest => by
    by_cases h : b0 < 256 ∧ b1 < 256 ∧ b2 < 256 <;>
      · simp only [b64encodePy, h, if_true, if_false, List.length_append,
          b64encodePy_length rest, List.length_cons]
        simp
        omega

/-! ## UTF-8 validity (model of `bytes.decode("utf-8")`) -/

/-- UTF-8 continuation byte. -/
def utf8Cont (b : Nat) : Bool := 128 ≤ b && b ≤ 191

/-- Strict UTF-8 validity of a byte sequence (excludes overlong forms,
surrogates, and code points above U+10FFFF), matching what Python's
`bytes.decode("utf-8")` accepts. -/
def utf8ValidB : List Nat → Bool
  | [] => true
  | b :: rest =>
    if b ≤ 127 then utf8ValidB rest
    else if 194 ≤ b && b ≤ 223 then
      match rest with
      | c1 :: r => utf8Cont c1 && utf8ValidB r
      | [] => false
    else if b = 224 then
      match rest with
      | c1 :: c2 :: r => (160 ≤ c1 && c1 ≤ 191) && utf8Cont c2 && utf8ValidB r
      | _ => false
    else if (225 ≤ b && b ≤ 236) || b = 238 || b = 239 then
      match rest with
      | c1 :: c2 :: r => utf8Cont c1 && utf8Cont c2 && utf8ValidB r
      | _ => false
    else if b = 237 then
      match rest with
      | c1 :: c2 :: r => (128 ≤ c1 && c1 ≤ 159) && utf8Cont c2 && utf8ValidB r
      | _ => false
    else if b = 240 then
      match rest with
      | c1 :: c2 :: c3 :: r =>
        (144 ≤ c1 && c1 ≤ 191) && utf8Cont c2 && utf8Cont c3 && utf8ValidB r
      | _ => false
    else if 241 ≤ b && b ≤ 243 then
      match rest with
      | c1 :: c2 :: c3 :: r => utf8Cont c1 && utf8Cont c2 && utf8Cont c3 && utf8ValidB r
      | _ => false
    else if b = 244 then
      match rest with
      | c1 :: c2 :: c3 :: r =>
        (128 ≤ c1 && c1 ≤ 143) && utf8Cont c2 && utf8Cont c3 && utf8ValidB r
      | _ => false
    else false

/-- Model of `plaintext_bytes.decode("utf-8")`: the identity on valid UTF-8
byte sequences (strings are identified with their UTF-8 bytes), a raised
`UnicodeDecodeError` (`none`) otherwise. -/
def utf8DecodeModel (bs : List Nat) : Option (List Nat) :=
  if utf8ValidB bs then some bs else none

/-! ## Embedded source: `backend/app/files/encryption.py` -/

/-- `encrypt_file(data, org_key)`: AES-256-GCM, splitting the 16-byte tag
off the ciphertext; returns `(ciphertext_without_tag, iv, tag)`.  The
`os.urandom(12)` nonce is the explicit `iv` parameter. -/
def encrypt_file (data org_key iv : List Nat) : List Nat × List Nat × List Nat :=
  let ciphertext_with_tag := gcmEncrypt org_key iv data
  (ciphertext_with_tag.take (ciphertext_with_tag.length - 16), iv,
    ciphertext_with_tag.drop (ciphertext_with_tag.length - 16))

/-- `decrypt_file(ciphertext, iv, tag, org_key)`: AES-256-GCM decryption of
`ciphertext + tag`; `none` models the raised `InvalidTag`. -/
def decrypt_file (ciphertext iv tag org_key : List Nat) : Option (List Nat) :=
  gcmDecrypt org_key iv (ciphertext ++ tag)

/-- `encrypt_field(value, org_key)`: empty (falsy) values are returned
unchanged; otherwise returns `base64(iv + tag + ciphertext)`.  The
`os.urandom(12)` nonce is the explicit `iv` parameter; `value` is a
string identified with its UTF-8 bytes. -/
def encrypt_field (value org_key iv : List Nat) : List Nat :=
  if value = [] then value
  else
    let ciphertext_with_tag := gcmEncrypt org_key iv value
    let ciphertext := ciphertext_with_tag.take (ciphertext_with_tag.length - 16)
    let tag := ciphertext_with_tag.drop (ciphertext_with_tag.length - 16)
    b64encodePy (iv ++ tag ++ ciphertext)

/-- The `try`-block of `decrypt_field`: base64-decode, slice
`combined[:12]`, `combined[12:28]`, `combined[28:]`, AEAD-decrypt, and
UTF-8-decode; `none` models any raised exception. -/
def decryptFieldTry (encrypted_value org_key : List Nat) : Option (List Nat) :=
  match b64decodePy encrypted_value with
  | none => none
  | some combined =>
    let iv := combined.take 12
    let tag := (combined.drop 12).take 16
    let ciphertext := combined.drop 28
    match gcmDecrypt org_key iv (ciphertext ++ tag) with
    | none => none
    | some plaintext_bytes => utf8DecodeModel plaintext_bytes

/-- `decrypt_field(encrypted_value, org_key)`: empty values are returned
unchanged; any exception in the `try` block is swallowed and the original
input returned (`except Exception: return encrypted_value`). -/
def decrypt_field (encrypted_value org_key : List Nat) : List Nat :=
  if encrypted_value = [] then encrypted_value
  else
    match decryptFieldTry encrypted_value org_key with
    | some plaintext => plaintext
    | none => encrypted_value

/-! ## Embedded source: `backend/app/orgs/service.py` -/

/-- ASCII byte list of a string literal (for the hard-coded salt and info
constants, and for `SECRET_KEY.encode("utf-8")` on ASCII secrets). -/
def strBytes (s : String) : List Nat := s.toList.map Char.toNat

/-- Model of `HKDF(algorithm=SHA256(), length=32, salt, info).derive(ikm)`,
idealized as injective in the input key material for fixed salt and info
(see the header comment): the derived key is a tagged copy of the inputs
rather than a 32-byte digest. -/
def hkdfDerive (salt info ikm : List Nat) : List Nat := salt ++ info ++ ikm

/-- `_get_master_key()`: derive the master key from `settings.SECRET_KEY`
(modelled as the explicit `secret_key` parameter, its UTF-8 bytes) with the
hard-coded salt and info constants. -/
def get_master_key (secret_key : List Nat) : List Nat :=
  hkdfDerive (strBytes "familyvault-master-key-salt")
    (strBytes "master-encryption-key") secret_key

/-- `_encrypt_org_key(org_key)`: AEAD-encrypt the organization key under the
master key and return `base64(iv + ciphertext)` (the GCM ciphertext includes
the tag).  The `os.urandom(12)` nonce is the explicit `iv` parameter. -/
def encrypt_org_key (org_key secret_key iv : List Nat) : List Nat :=
  let master_key := get_master_key secret_key
  let ciphertext := gcmEncrypt master_key iv org_key
  b64encodePy (iv ++ ciphertext)

/-- `_decrypt_org_key(encrypted)`: base64-decode, split `raw[:12]` /
`raw[12:]`, and AEAD-decrypt under the master key; `none` models a raised
exception (`binascii.Error` or `InvalidTag`). -/
def decrypt_org_key (encrypted secret_key : List Nat) : Option (List Nat) :=
  let master_key := get_master_key secret_key
  match b64decodePy encrypted with
  | none => none
  | some raw => gcmDecrypt master_key (raw.take 12) (raw.drop 12)

/-- `get_org_encryption_key(org)`: decrypt the organization's stored
`encryption_key_enc` with the master key. -/
def get_org_encryption_key (encryption_key_enc secret_key : List Nat) : Option (List Nat) :=
  decrypt_org_key encryption_key_enc secret_key

/-! ## Helper lemmas about the embedded encryption functions -/

/-- All bytes below 256. -/
def isBytes (bs : List Nat) : Prop := ∀ x ∈ bs, x < 256

instance (bs : List Nat) : Decidable (isBytes bs) := by
  unfold isBytes; infer_instance

theorem isBytes_le (bs : List Nat) (h : isBytes bs) : ∀ x ∈ bs, x ≤ 256 :=
  fun x hx => Nat.le_of_lt (h x hx)

theorem encrypt_file_eq (data org_key iv : List Nat) :
    encrypt_file data org_key iv =
      (gcmMask org_key iv 0 data, iv,
        gcmTagList org_key iv (gcmMask org_key iv 0 data)) := by
  simp only [encrypt_file]
  rw [gcmEncrypt_take, gcmEncrypt_drop]

theorem decrypt_file_encrypt_file (data org_key iv : List Nat) :
    decrypt_file (encrypt_file data org_key iv).1 iv (encrypt_file data org_key iv).2.2
      org_key = some data := by
  rw [encrypt_file_eq]
  unfold decrypt_file
  exact gcmDecrypt_gcmEncrypt org_key iv data

theorem field_combined_take12 (iv tg ct : List Nat) (hiv : iv.length = 12) :
    (iv ++ tg ++ ct).take 12 = iv := by
  rw [List.append_assoc, ← hiv]
  exact List.take_left _ _

theorem field_combined_slice (iv tg ct : List Nat) (hiv : iv.length = 12)
    (htg : tg.length = 16) : ((iv ++ tg ++ ct).drop 12).take 16 = tg := by
  rw [List.append_assoc]
  rw [show (12 : Nat) = iv.length from hiv.symm, List.drop_left, ← htg]
  exact List.take_left _ _

theorem field_combined_drop28 (iv tg ct : List Nat) (hiv : iv.length = 12)
    (htg : tg.length = 16) : (iv ++ tg ++ ct).drop 28 = ct := by
  have h : (iv ++ tg).length = 28 := by simp [hiv, htg]
  rw [show (28 : Nat) = (iv ++ tg).length from h.symm]
  exact List.drop_left _ _

theorem encrypt_field_length (value org_key iv : List Nat) (hv : value ≠ [])
    (hiv : iv.length = 12) :
    (encrypt_field value org_key iv).length = 4 * ((value.length + 30) / 3) := by
  unfold encrypt_field
  rw [if_neg hv]
  simp only [gcmEncrypt_take, gcmEncrypt_drop, b64encodePy_length,
    List.length_append, gcmMask_length, gcmTagList_length, hiv]
  congr 1
  omega

theorem encrypt_field_ne_nil (value org_key iv : List Nat) (hv : value ≠ [])
    (hiv : iv.length = 12) : encrypt_field value org_key iv ≠ [] := by
  intro h
  have := encrypt_field_length value org_key iv hv hiv
  rw [h] at this
  simp at this
  omega

theorem decryptFieldTry_encrypt_field (value org_key iv : List Nat) (hv : value ≠ [])
    (hvalid : utf8ValidB value = true) (hiv : iv.length = 12) :
    decryptFieldTry (encrypt_field value org_key iv) org_key = some value := by
  unfold encrypt_field
  rw [if_neg hv]
  simp only [gcmEncrypt_take, gcmEncrypt_drop]
  unfold decryptFieldTry
  rw [b64decodePy_b64encodePy]
  simp only [field_combined_take12 _ _ _ hiv,
    field_combined_slice _ _ _ hiv (gcmTagList_length _ _ _),
    field_combined_drop28 _ _ _ hiv (gcmTagList_length _ _ _)]
  rw [show gcmMask org_key iv 0 value ++ gcmTagList org_key iv (gcmMask org_key iv 0 value) =
    gcmEncrypt org_key iv value from rfl]
  rw [gcmDecrypt_gcmEncrypt]
  simp [utf8DecodeModel, hvalid]

theorem decrypt_field_encrypt_field (value org_key iv : List Nat) (hv : value ≠ [])
    (hvalid : utf8ValidB value = true) (hiv : iv.length = 12) :
    decrypt_field (encrypt_field value org_key iv) org_key = value := by
  unfold decrypt_field
  rw [if_neg (encrypt_field_ne_nil value org_key iv hv hiv),
    decryptFieldTry_encrypt_field value org_key iv hv hvalid hiv]

theorem decryptFieldTry_wrong_key (value kA kB iv : List Nat) (hA : isBytes kA)
    (hB : isBytes kB) (hne : kA ≠ kB) (hv : value ≠ []) (hiv : iv.length = 12) :
    decryptFieldTry (encrypt_field value kA iv) kB = none := by
  unfold encrypt_field
  rw [if_neg hv]
  simp only [gcmEncrypt_take, gcmEncrypt_drop]
  unfold decryptFieldTry
  rw [b64decodePy_b64encodePy]
  simp only [field_combined_take12 _ _ _ hiv,
    field_combined_slice _ _ _ hiv (gcmTagList_length _ _ _),
    field_combined_drop28 _ _ _ hiv (gcmTagList_length _ _ _)]
  rw [show gcmMask kA iv 0 value ++ gcmTagList kA iv (gcmMask kA iv 0 value) =
    gcmEncrypt kA iv value from rfl]
  rw [gcmDecrypt_wrong_key kA kB iv value (isBytes_le _ hA) (isBytes_le _ hB) hne]

theorem decrypt_field_wrong_key (value kA kB iv : List Nat) (hA : isBytes kA)
    (hB : isBytes kB) (hne : kA ≠ kB) (hv : value ≠ []) (hiv : iv.length = 12) :
    decrypt_field (encrypt_field value kA iv) kB = encrypt_field value kA iv := by
  unfold decrypt_field
  rw [if_neg (encrypt_field_ne_nil value kA iv hv hiv),
    decryptFieldTry_wrong_key value kA kB iv hA hB hne hv hiv]

theorem decrypt_org_key_encrypt_org_key (org_key secret_key iv : List Nat)
    (hiv : iv.length = 12) :
    decrypt_org_key (encrypt_org_key org_key secret_key iv) secret_key = some org_key := by
  simp only [encrypt_org_key, decrypt_org_key, b64decodePy_b64encodePy]
  rw [show (12 : Nat) = iv.length from hiv.symm, List.take_left, List.drop_left]
  exact gcmDecrypt_gcmEncrypt _ iv org_key

theorem get_master_key_isBytes (secret_key : List Nat) (h : isBytes secret_key) :
    isBytes (get_master_key secret_key) := by
  have hsalt : isBytes (strBytes "familyvault-master-key-salt") := by decide
  have hinfo : isBytes (strBytes "master-encryption-key") := by decide
  intro x hx
  unfold get_master_key hkdfDerive at hx
  rcases List.mem_append.mp hx with hx | hx
  · rcases List.mem_append.mp hx with hx | hx
    · exact hsalt x hx
    · exact hinfo x hx
  · exact h x hx

theorem get_master_key_inj (sA sB : List Nat) (h : get_master_key sA = get_master_key sB) :
    sA = sB := by
  unfold get_master_key hkdfDerive at h
  exact List.append_cancel_left h

theorem decrypt_org_key_wrong_secret (org_key sA sB iv : List Nat)
    (hA : isBytes sA) (hB : isBytes sB) (hne : sA ≠ sB) (hiv : iv.length = 12) :
    decrypt_org_key (encrypt_org_key org_key sA iv) sB = none := by
  simp only [encrypt_org_key, decrypt_org_key, b64decodePy_b64encodePy]
  rw [show (12 : Nat) = iv.length from hiv.symm, List.take_left, List.drop_left]
  exact gcmDecrypt_wrong_key (get_master_key sA) (get_master_key sB) iv org_key
    (isBytes_le _ (get_master_key_isBytes sA hA))
    (isBytes_le _ (get_master_key_isBytes sB hB))
    (fun he => hne (get_master_key_inj sA sB he))

/-! ## Bit flipping (tamper model) -/

/-- Flip bit `i` of entry `j`. -/
def flipBit (bs : List Nat) (j i : Nat) : List Nat :=
  bs.set j (bs.getD j 0 ^^^ 2 ^ i)

theorem flipBit_length (bs : List Nat) (j i : Nat) :
    (flipBit bs j i).length = bs.length := by
  simp [flipBit]

theorem flipBit_ne (bs : List Nat) (j i : Nat) (hj : j < bs.length) :
    flipBit bs j i ≠ bs := by
  intro h
  have hset : (flipBit bs j i).getD j 0 = bs.getD j 0 ^^^ 2 ^ i := by
    unfold flipBit
    rw [List.getD_eq_getElem _ 0 (by simpa using hj)]
    exact List.getElem_set_self _
  rw [h] at hset
  have hzero : (2 : Nat) ^ i = 0 := by
    have h2 := congrArg (fun t => bs.getD j 0 ^^^ t) hset.symm
    simp only [← Nat.xor_assoc, Nat.xor_self, Nat.zero_xor] at h2
    exact h2
  exact (Nat.two_pow_pos i).ne' hzero

theorem flipBit_isBytes (bs : List Nat) (j i : Nat) (hb : isBytes bs) (hi : i < 8) :
    isBytes (flipBit bs j i) := by
  intro x hx
  rcases List.mem_or_eq_of_mem_set hx with hx | rfl
  · exact hb x hx
  · by_cases hj : j < bs.length
    · have h1 : bs.getD j 0 < 2 ^ 8 := by
        rw [List.getD_eq_getElem bs 0 hj]
        exact hb _ (List.getElem_mem hj)
      have h2 : (2 : Nat) ^ i < 2 ^ 8 := Nat.pow_lt_pow_right (by norm_num) hi
      exact Nat.xor_lt_two_pow h1 h2
    · have h1 : bs.getD j 0 = 0 := by
        rw [List.getD_eq_default]
        omega
      rw [h1]
      have h2 : (2 : Nat) ^ i < 2 ^ 8 := Nat.pow_lt_pow_right (by norm_num) hi
      simpa using h2

theorem decrypt_file_flip_ct (data org_key iv : List Nat) (j i : Nat)
    (hdata : isBytes data) (hj : j < data.length) (hi : i < 8) :
    decrypt_file (flipBit (encrypt_file data org_key iv).1 j i) iv
      (encrypt_file data org_key iv).2.2 org_key = none := by
  rw [encrypt_file_eq]
  unfold decrypt_file gcmDecrypt
  have hmlen : (gcmMask org_key iv 0 data).length = data.length := gcmMask_length _ _ _ _
  have hlen : (flipBit (gcmMask org_key iv 0 data) j i ++
      gcmTagList org_key iv (gcmMask org_key iv 0 data)).length = data.length + 16 := by
    simp [flipBit_length, hmlen, gcmTagList_length]
  rw [if_neg (by rw [hlen]; omega)]
  have htake : (flipBit (gcmMask org_key iv 0 data) j i ++
      gcmTagList org_key iv (gcmMask org_key iv 0 data)).take
        ((flipBit (gcmMask org_key iv 0 data) j i ++
          gcmTagList org_key iv (gcmMask org_key iv 0 data)).length - 16) =
      flipBit (gcmMask org_key iv 0 data) j i := by
    rw [hlen, Nat.add_sub_cancel, ← hmlen, ← flipBit_length (gcmMask org_key iv 0 data) j i]
    exact List.take_left _ _
  have hdrop : (flipBit (gcmMask org_key iv 0 data) j i ++
      gcmTagList org_key iv (gcmMask org_key iv 0 data)).drop
        ((flipBit (gcmMask org_key iv 0 data) j i ++
          gcmTagList org_key iv (gcmMask org_key iv 0 data)).length - 16) =
      gcmTagList org_key iv (gcmMask org_key iv 0 data) := by
    rw [hlen, Nat.add_sub_cancel, ← hmlen, ← flipBit_length (gcmMask org_key iv 0 data) j i]
    exact List.drop_left _ _
  rw [if_neg]
  rw [htake, hdrop]
  apply gcmTagList_inj_of_fingerprint_ne
  apply gcmFingerprint_ct_ne
  · exact isBytes_le _ (gcmMask_lt org_key iv 0 data hdata)
  · exact isBytes_le _ (flipBit_isBytes _ j i (gcmMask_lt org_key iv 0 data hdata) hi)
  · exact fun he => flipBit_ne _ j i (by rw [hmlen]; exact hj) he.symm

theorem decrypt_file_flip_tag (data org_key iv : List Nat) (j i : Nat)
    (hj : j < 16) :
    decrypt_file (encrypt_file data org_key iv).1 iv
      (flipBit (encrypt_file data org_key iv).2.2 j i) org_key = none := by
  rw [encrypt_file_eq]
  unfold decrypt_file gcmDecrypt
  have hmlen : (gcmMask org_key iv 0 data).length = data.length := gcmMask_length _ _ _ _
  have htlen : (flipBit (gcmTagList org_key iv (gcmMask org_key iv 0 data)) j i).length = 16 := by
    rw [flipBit_length, gcmTagList_length]
  have hlen : (gcmMask org_key iv 0 data ++
      flipBit (gcmTagList org_key iv (gcmMask org_key iv 0 data)) j i).length =
      data.length + 16 := by
    simp [hmlen, htlen]
  rw [if_neg (by rw [hlen]; omega)]
  have htake : (gcmMask org_key iv 0 data ++
      flipBit (gcmTagList org_key iv (gcmMask org_key iv 0 data)) j i).take
        ((gcmMask org_key iv 0 data ++
          flipBit (gcmTagList org_key iv (gcmMask org_key iv 0 data)) j i).length - 16) =
      gcmMask org_key iv 0 data := by
    rw [hlen, Nat.add_sub_cancel, ← hmlen]
    exact List.take_left _ _
  have hdrop : (gcmMask org_key iv 0 data ++
      flipBit (gcmTagList org_key iv (gcmMask org_key iv 0 data)) j i).drop
        ((gcmMask org_key iv 0 data ++
          flipBit (gcmTagList org_key iv (gcmMask org_key iv 0 data)) j i).length - 16) =
      flipBit (gcmTagList org_key iv (gcmMask org_key iv 0 data)) j i := by
    rw [hlen, Nat.add_sub_cancel, ← hmlen]
    exact List.drop_left _ _
  rw [if_neg]
  rw [htake, hdrop]
  exact flipBit_ne _ j i (by rw [gcmTagList_length]; exact hj)

/-! ## Embedded source: `backend/alembic/versions/012_encrypt_sensitive_fields.py` -/

/-- The already-encrypted heuristic of the migration `upgrade()` loop
(lines 148–154): a value is assumed already encrypted iff
`base64.b64decode(field_value)` succeeds and `len(field_value) > 40`. -/
def migrationLooksEncrypted (field_value : List Nat) : Bool :=
  (b64decodePy field_value).isSome && decide (40 < field_value.length)

/-- Treatment of one sensitive field value by the migration `upgrade()` loop
(lines 142–168): empty values are untouched (`and field_value` guard),
values that look already encrypted are skipped (`continue`), anything else
is overwritten with `encrypt_field(field_value, org_key)` (the migration's
own copy of `encrypt_field` is textually identical to the one in
`files/encryption.py`).  The `os.urandom(12)` nonce of that encryption is
the explicit `iv` parameter. -/
def migrateFieldValue (org_key iv field_value : List Nat) : List Nat :=
  if field_value = [] then field_value
  else if migrationLooksEncrypted field_value then field_value
  else encrypt_field field_value org_key iv

theorem migrateFieldValue_skips (v k1 iv1 k2 iv2 : List Nat) (hv : v ≠ [])
    (hlen : 3 ≤ v.length) (hiv1 : iv1.length = 12) :
    migrateFieldValue k2 iv2 (encrypt_field v k1 iv1) = encrypt_field v k1 iv1 := by
  unfold migrateFieldValue
  rw [if_neg (encrypt_field_ne_nil v k1 iv1 hv hiv1), if_pos]
  unfold migrationLooksEncrypted
  have hdec : (b64decodePy (encrypt_field v k1 iv1)).isSome = true := by
    unfold encrypt_field
    rw [if_neg hv]
    simp [b64decodePy_b64encodePy]
  rw [hdec, encrypt_field_length v k1 iv1 hv hiv1]
  simp only [Bool.true_and, decide_eq_true_eq]
  omega

theorem migrateFieldValue_reencrypts_short (v k1 iv1 k2 iv2 : List Nat) (hv : v ≠ [])
    (hshort : v.length ≤ 2) (hiv1 : iv1.length = 12) (hiv2 : iv2.length = 12) :
    migrateFieldValue k2 iv2 (encrypt_field v k1 iv1) =
      encrypt_field (encrypt_field v k1 iv1) k2 iv2 ∧
    migrateFieldValue k2 iv2 (encrypt_field v k1 iv1) ≠ encrypt_field v k1 iv1 := by
  have hne := encrypt_field_ne_nil v k1 iv1 hv hiv1
  have hlen := encrypt_field_length v k1 iv1 hv hiv1
  have hlen40 : (encrypt_field v k1 iv1).length = 40 := by
    rw [hlen]
    have : v.length = 1 ∨ v.length = 2 := by
      rcases List.length_pos.mpr hv with h
      omega
    rcases this with h | h <;> rw [h]
  have hstep : migrateFieldValue k2 iv2 (encrypt_field v k1 iv1) =
      encrypt_field (encrypt_field v k1 iv1) k2 iv2 := by
    unfold migrateFieldValue
    rw [if_neg hne, if_neg]
    unfold migrationLooksEncrypted
    rw [hlen40]
    simp
  refine ⟨hstep, ?_⟩
  rw [hstep]
  intro h
  have h92 := encrypt_field_length (encrypt_field v k1 iv1) k2 iv2 hne hiv2
  rw [h, hlen40] at h92
  omega

/-! ## Embedded source: `backend/app/files/router.py` (upload/download) -/

/-- The storage payload and recorded metadata produced by `upload_file`
(lines 74–87): `encryption_version == 2` stores the received content
verbatim with empty iv/tag metadata; otherwise (v1) the content is
encrypted with the organization key and `ciphertext + tag` is stored. -/
structure UploadPayload where
  stored : List Nat
  iv_b64 : List Nat
  tag_b64 : List Nat
deriving DecidableEq

/-- `upload_file`'s storage/crypto dispatch (lines 74–87); the surrounding
item lookup, MIME/size guards and metadata bookkeeping are orthogonal to
the stored bytes and are not modelled. -/
def upload_file_payload (encryption_version : Nat) (content org_key iv : List Nat) :
    UploadPayload :=
  if encryption_version = 2 then ⟨content, [], []⟩
  else
    let e := encrypt_file content org_key iv
    ⟨e.1 ++ e.2.2, b64encodePy e.2.1, b64encodePy e.2.2⟩

/-- `download_file`'s response bytes (lines 136–164): v2 returns the stored
bytes as-is; v1 base64-decodes the recorded iv (and tag), splits
`stored_data[:-16]` / `stored_data[-16:]`, and decrypts. -/
def download_file_response (encryption_version : Nat)
    (stored_data iv_b64 tag_b64 org_key : List Nat) : Option (List Nat) :=
  if encryption_version = 2 then some stored_data
  else
    match b64decodePy iv_b64, b64decodePy tag_b64 with
    | some iv, some _ =>
      decrypt_file (stored_data.take (stored_data.length - 16)) iv
        (stored_data.drop (stored_data.length - 16)) org_key
    | _, _ => none

theorem upload_download_v1 (content org_key iv : List Nat) :
    download_file_response 1
      (upload_file_payload 1 content org_key iv).stored
      (upload_file_payload 1 content org_key iv).iv_b64
      (upload_file_payload 1 content org_key iv).tag_b64 org_key = some content := by
  simp only [upload_file_payload, if_neg (by omega : ¬ (1 : Nat) = 2), encrypt_file_eq]
  rw [show gcmMask org_key iv 0 content ++
    gcmTagList org_key iv (gcmMask org_key iv 0 content) = gcmEncrypt org_key iv content
    from rfl]
  simp only [download_file_response, if_neg (by omega : ¬ (1 : Nat) = 2),
    b64decodePy_b64encodePy, gcmEncrypt_take, gcmEncrypt_drop]
  unfold decrypt_file
  rw [show gcmMask org_key iv 0 content ++
    gcmTagList org_key iv (gcmMask org_key iv 0 content) = gcmEncrypt org_key iv content
    from rfl]
  exact gcmDecrypt_gcmEncrypt org_key iv content

/-! ## Embedded source: `backend/app/auth/router.py` (key exchange) -/

/-- The fields of the `users` table the key-exchange endpoints read. -/
structure UserRec where
  id : Nat
  public_key : Option (List Nat)
deriving DecidableEq

/-- A row of `org_memberships` (`uq_org_user`: unique per pair). -/
structure MembershipRec where
  org_id : Nat
  user_id : Nat
deriving DecidableEq

/-- A row of `org_member_keys` (`uq_org_member_key`: unique per pair). -/
structure OrgMemberKeyRec where
  org_id : Nat
  user_id : Nat
  encrypted_org_key : List Nat
deriving DecidableEq

/-- The database state read by `get_pending_key_members`. -/
structure AuthDB where
  users : List UserRec
  memberships : List MembershipRec
  org_member_keys : List OrgMemberKeyRec

/-- `get_pending_key_members` (lines 315–332): the SQL join of `User` with
`OrgMembership` on this organization, filtered to users with
`public_key IS NOT NULL` whose id is not in the subquery of
`OrgMemberKey.user_id` rows for the organization.  The join is modelled as
a filter over users (the `uq_org_user` constraint makes the join produce
each member once); the caller-membership guard (HTTP 403) is orthogonal
and not modelled.  No decryption is involved anywhere. -/
def get_pending_key_members (db : AuthDB) (org_id : Nat) : List UserRec :=
  db.users.filter fun u =>
    (db.memberships.any fun m => m.user_id == u.id && m.org_id == org_id) &&
    u.public_key.isSome &&
    !(db.org_member_keys.any fun k => k.org_id == org_id && k.user_id == u.id)

/-- The upsert of `store_org_key` (lines 240–258): overwrite the
`encrypted_org_key` of the first row matching the (org, user) pair, or
append a fresh row if none matches.  The caller-membership and
target-existence guards (HTTP 403/404) are orthogonal and not modelled. -/
def store_org_key_upsert : List OrgMemberKeyRec → Nat → Nat → List Nat → List OrgMemberKeyRec
  | [], org_id, user_id, blob => [⟨org_id, user_id, blob⟩]
  | r :: rs, org_id, user_id, blob =>
    if r.org_id = org_id ∧ r.user_id = user_id then ⟨org_id, user_id, blob⟩ :: rs
    else r :: store_org_key_upsert rs org_id user_id blob

/-- The rows of the member-key table for one (org, user) pair. -/
def rowsForPair (rows : List OrgMemberKeyRec) (org_id user_id : Nat) : List OrgMemberKeyRec :=
  rows.filter fun r => r.org_id == org_id && r.user_id == user_id

/-- At most one row per (org, user) pair — the `uq_org_member_key`
constraint. -/
def pairUnique (rows : List OrgMemberKeyRec) : Prop :=
  rows.Pairwise fun a b => ¬(a.org_id = b.org_id ∧ a.user_id = b.user_id)

instance (rows : List OrgMemberKeyRec) : Decidable (pairUnique rows) := by
  unfold pairUnique
  exact List.instDecidablePairwise rows

theorem mem_store_org_key_upsert : ∀ (rows : List OrgMemberKeyRec) (o u : Nat) (b : List Nat)
    (x : OrgMemberKeyRec), x ∈ store_org_key_upsert rows o u b → x ∈ rows ∨ x = ⟨o, u, b⟩
  | [], o, u, b, x, hx => by
    simp only [store_org_key_upsert, List.mem_singleton] at hx
    exact Or.inr hx
  | r :: rs, o, u, b, x, hx => by
    by_cases h : r.org_id = o ∧ r.user_id = u
    · simp only [store_org_key_upsert, if_pos h, List.mem_cons] at hx
      rcases hx with rfl | hx
      · exact Or.inr rfl
      · exact Or.inl (List.mem_cons_of_mem r hx)
    · simp only [store_org_key_upsert, if_neg h, List.mem_cons] at hx
      rcases hx with rfl | hx
      · exact Or.inl (List.mem_cons_self _ _)
      · rcases mem_store_org_key_upsert rs o u b x hx with hx | hx
        · exact Or.inl (List.mem_cons_of_mem r hx)
        · exact Or.inr hx

theorem pairUnique_store : ∀ (rows : List OrgMemberKeyRec) (o u : Nat) (b : List Nat),
    pairUnique rows → pairUnique (store_org_key_upsert rows o u b)
  | [], o, u, b, _ => by simp [store_org_key_upsert, pairUnique]
  | r :: rs, o, u, b, h => by
    rw [pairUnique, List.pairwise_cons] at h
    obtain ⟨hr, hrs⟩ := h
    by_cases hm : r.org_id = o ∧ r.user_id = u
    · simp only [store_org_key_upsert, if_pos hm, pairUnique, List.pairwise_cons]
      refine ⟨fun x hx => ?_, hrs⟩
      have := hr x hx
      rw [← hm.1, ← hm.2]
      exact this
    · simp only [store_org_key_upsert, if_neg hm, pairUnique, List.pairwise_cons]
      refine ⟨fun x hx => ?_, pairUnique_store rs o u b hrs⟩
      rcases mem_store_org_key_upsert rs o u b x hx with hx | rfl
      · exact hr x hx
      · exact hm

theorem rowsForPair_store_eq : ∀ (rows : List OrgMemberKeyRec) (o u : Nat) (b : List Nat),
    pairUnique rows → rowsForPair (store_org_key_upsert rows o u b) o u = [⟨o, u, b⟩]
  | [], o, u, b, _ => by simp [store_org_key_upsert, rowsForPair]
  | r :: rs, o, u, b, h => by
    rw [pairUnique, List.pairwise_cons] at h
    obtain ⟨hr, hrs⟩ := h
    by_cases hm : r.org_id = o ∧ r.user_id = u
    · simp only [store_org_key_upsert, if_pos hm, rowsForPair, List.filter_cons]
      simp only [beq_self_eq_true, Bool.and_self, if_pos]
      have hnil : rs.filter (fun x => x.org_id == o && x.user_id == u) = [] := by
        rw [List.filter_eq_nil_iff]
        intro x hx
        have := hr x hx
        rw [hm.1, hm.2] at this
        simp only [Bool.and_eq_true, beq_iff_eq]
        exact fun hc => this ⟨hc.1.symm ▸ rfl, hc.2.symm ▸ rfl⟩
      simp [hnil]
    · simp only [store_org_key_upsert, if_neg hm, rowsForPair, List.filter_cons]
      have hno : (r.org_id == o && r.user_id == u) = false := by
        simp only [Bool.and_eq_false_iff, beq_eq_false_iff_ne, ne_eq]
        by_cases h1 : r.org_id = o
        · exact Or.inr fun h2 => hm ⟨h1, h2⟩
        · exact Or.inl h1
      rw [hno]
      exact rowsForPair_store_eq rs o u b hrs

theorem rowsForPair_store_ne : ∀ (rows : List OrgMemberKeyRec) (o u : Nat) (b : List Nat)
    (o' u' : Nat), ¬(o = o' ∧ u = u') →
    rowsForPair (store_org_key_upsert rows o u b) o' u' = rowsForPair rows o' u'
  | [], o, u, b, o', u', hne => by
    simp only [store_org_key_upsert, rowsForPair, List.filter_cons]
    have : ((⟨o, u, b⟩ : OrgMemberKeyRec).org_id == o' &&
        (⟨o, u, b⟩ : OrgMemberKeyRec).user_id == u') = false := by
      simp only [Bool.and_eq_false_iff, beq_eq_false_iff_ne, ne_eq]
      by_cases h1 : o = o'
      · exact Or.inr fun h2 => hne ⟨h1, h2⟩
      · exact Or.inl h1
    rw [this]
    rfl
  | r :: rs, o, u, b, o', u', hne => by
    by_cases hm : r.org_id = o ∧ r.user_id = u
    · simp only [store_org_key_upsert, if_pos hm, rowsForPair, List.filter_cons]
      have h1 : ((⟨o, u, b⟩ : OrgMemberKeyRec).org_id == o' &&
          (⟨o, u, b⟩ : OrgMemberKeyRec).user_id == u') = false := by
        simp only [Bool.and_eq_false_iff, beq_eq_false_iff_ne, ne_eq]
        by_cases hc : o = o'
        · exact Or.inr fun h2 => hne ⟨hc, h2⟩
        · exact Or.inl hc
      have h2 : (r.org_id == o' && r.user_id == u') = false := by
        simp only [Bool.and_eq_false_iff, beq_eq_false_iff_ne, ne_eq]
        by_cases hc : r.org_id = o'
        · refine Or.inr fun hc2 => hne ⟨?_, ?_⟩
          · rw [← hm.1]; exact hc
          · rw [← hm.2]; exact hc2
        · exact Or.inl hc
      rw [h1, h2]
      simp
    · simp only [store_org_key_upsert, if_neg hm, rowsForPair, List.filter_cons]
      have hrec := rowsForPair_store_ne rs o u b o' u' hne
      simp only [rowsForPair] at hrec
      rw [hrec]

/-- One call to the `store_org_key` endpoint (key ceremony upsert). -/
structure StoreCall where
  org_id : Nat
  user_id : Nat
  blob : List Nat

/-- Replay a sequence of `store_org_key` calls against the member-key
table. -/
def applyCalls (rows : List OrgMemberKeyRec) (calls : List StoreCall) : List OrgMemberKeyRec :=
  calls.foldl (fun acc c => store_org_key_upsert acc c.org_id c.user_id c.blob) rows

/-- The wrapped blob of the most recent call in `calls` targeting the given
(org, user) pair, if any (later calls are earlier in no list — the list is
in call order, and the recursion prefers the tail). -/
def lastCallFor : List StoreCall → Nat → Nat → Option (List Nat)
  | [], _, _ => none
  | c :: cs, o, u =>
    match lastCallFor cs o u with
    | some b => some b
    | none => if c.org_id = o ∧ c.user_id = u then some c.blob else none

theorem lastCallFor_none : ∀ (cs : List StoreCall) (o u : Nat), lastCallFor cs o u = none →
    ∀ c ∈ cs, ¬(c.org_id = o ∧ c.user_id = u)
  | [], _, _, _, c, hc => by simp at hc
  | c0 :: cs, o, u, h, c, hc => by
    simp only [lastCallFor] at h
    cases hcs : lastCallFor cs o u with
    | some b => rw [hcs] at h; exact absurd h (by simp)
    | none =>
      rw [hcs] at h
      rcases List.mem_cons.mp hc with rfl | hc
      · intro hm
        rw [if_pos hm] at h
        exact absurd h (by simp)
      · exact lastCallFor_none cs o u hcs c hc

theorem applyCalls_pairUnique : ∀ (calls : List StoreCall) (rows : List OrgMemberKeyRec),
    pairUnique rows → pairUnique (applyCalls rows calls)
  | [], _, h => h
  | c :: cs, rows, h =>
    applyCalls_pairUnique cs _ (pairUnique_store rows c.org_id c.user_id c.blob h)

theorem applyCalls_untouched : ∀ (calls : List StoreCall) (rows : List OrgMemberKeyRec)
    (o u : Nat), (∀ c ∈ calls, ¬(c.org_id = o ∧ c.user_id = u)) →
    rowsForPair (applyCalls rows calls) o u = rowsForPair rows o u
  | [], _, _, _, _ => rfl
  | c :: cs, rows, o, u, h => by
    have hstep := applyCalls_untouched cs (store_org_key_upsert rows c.org_id c.user_id c.blob)
      o u (fun c' hc' => h c' (List.mem_cons_of_mem c hc'))
    rw [show applyCalls rows (c :: cs) =
      applyCalls (store_org_key_upsert rows c.org_id c.user_id c.blob) cs from rfl, hstep]
    exact rowsForPair_store_ne rows c.org_id c.user_id c.blob o u (h c (List.mem_cons_self _ _))

theorem applyCalls_lastCall : ∀ (calls : List StoreCall) (rows : List OrgMemberKeyRec)
    (o u : Nat) (b : List Nat), pairUnique rows → lastCallFor calls o u = some b →
    rowsForPair (applyCalls rows calls) o u = [⟨o, u, b⟩]
  | [], _, _, _, _, _, h => by simp [lastCallFor] at h
  | c :: cs, rows, o, u, b, hu, h => by
    simp only [lastCallFor] at h
    cases hcs : lastCallFor cs o u with
    | some b' =>
      rw [hcs] at h
      have hb : b' = b := by simpa using h
      subst hb
      exact applyCalls_lastCall cs _ o u b'
        (pairUnique_store rows c.org_id c.user_id c.blob hu) hcs
    | none =>
      rw [hcs] at h
      by_cases hm : c.org_id = o ∧ c.user_id = u
      · rw [if_pos hm] at h
        obtain ⟨hm1, hm2⟩ := hm
        have hb : c.blob = b := by simpa using h
        subst hm1
        subst hm2
        subst hb
        have huntouched := applyCalls_untouched cs
          (store_org_key_upsert rows c.org_id c.user_id c.blob) c.org_id c.user_id
          (lastCallFor_none cs c.org_id c.user_id hcs)
        rw [show applyCalls rows (c :: cs) =
          applyCalls (store_org_key_upsert rows c.org_id c.user_id c.blob) cs from rfl,
          huntouched]
        exact rowsForPair_store_eq rows c.org_id c.user_id c.blob hu
      · rw [if_neg hm] at h
        exact absurd h (by simp)

/-! ## Concrete test data for the witnesses -/

/-- A concrete 32-byte key. -/
def key32 : List Nat := List.replicate 32 7

/-- A second, distinct, concrete 32-byte key. -/
def key32B : List Nat := List.replicate 32 9

/-- A concrete 12-byte nonce. -/
def iv12 : List Nat := List.replicate 12 3

/-- The spec's canonical invalid-base64 input, as its ASCII bytes. -/
def invalidB64Str : List Nat := strBytes "not-valid-base64!!!"

/-! ## The claims -/

/-- Claim C1: encryption round-trip.  For every byte string `p` and 32-byte
key `k`, `decrypt_file` applied to the `(ciphertext, nonce, tag)` produced by
`encrypt_file(p, k)` with the same key returns `p`; and for every non-empty
UTF-8 string `s`, `decrypt_field(encrypt_field(s, k), k) == s`. -/
theorem claim_C1_roundtrip :
    (∀ p k iv : List Nat, isBytes p → isBytes k → k.length = 32 →
      decrypt_file (encrypt_file p k iv).1 iv (encrypt_file p k iv).2.2 k = some p) ∧
    (∀ s k iv : List Nat, s ≠ [] → utf8ValidB s = true → isBytes k → k.length = 32 →
      iv.length = 12 → decrypt_field (encrypt_field s k iv) k = s) :=
  ⟨fun p k iv _ _ _ => decrypt_file_encrypt_file p k iv,
   fun s k iv hs hvalid _ _ hiv => decrypt_field_encrypt_field s k iv hs hvalid hiv⟩

theorem claim_C1_roundtrip_witness :
    decrypt_file (encrypt_file [104, 105] key32 iv12).1 iv12
      (encrypt_file [104, 105] key32 iv12).2.2 key32 = some [104, 105] ∧
    decrypt_field (encrypt_field [104, 105] key32 iv12) key32 = [104, 105] :=
  ⟨claim_C1_roundtrip.1 [104, 105] key32 iv12 (by decide) (by decide) (by decide),
   claim_C1_roundtrip.2 [104, 105] key32 iv12 (by decide) (by decide) (by decide)
     (by decide) (by decide)⟩

/-- Claim C2: silent fallback of the field decryptor.  If any step of the
`try` block of `decrypt_field(s, k)` fails (invalid base64, short input,
tag failure — including decryption under a different organization's key),
`decrypt_field` returns the original input unchanged and raises nothing
(the model's functions are total).  The second conjunct instantiates the
wrong-key trigger: decrypting a field encrypted under `kA` with a
different key `kB` returns the ciphertext string unchanged. -/
theorem claim_C2_fallback :
    (∀ s k : List Nat, decryptFieldTry s k = none → decrypt_field s k = s) ∧
    (∀ v kA kB iv : List Nat, isBytes kA → isBytes kB → kA ≠ kB → v ≠ [] →
      iv.length = 12 →
      decrypt_field (encrypt_field v kA iv) kB = encrypt_field v kA iv) := by
  constructor
  · intro s k h
    unfold decrypt_field
    by_cases hs : s = []
    · rw [if_pos hs]
    · rw [if_neg hs, h]
  · intro v kA kB iv hA hB hne hv hiv
    exact decrypt_field_wrong_key v kA kB iv hA hB hne hv hiv

theorem claim_C2_fallback_witness :
    decrypt_field invalidB64Str key32 = invalidB64Str ∧
    decrypt_field (encrypt_field [65] key32 iv12) key32B = encrypt_field [65] key32 iv12 :=
  ⟨claim_C2_fallback.1 invalidB64Str key32 (by decide),
   claim_C2_fallback.2 [65] key32 key32B iv12 (by decide) (by decide) (by decide)
     (by decide) (by decide)⟩

/-- Claim C3: master-key wrap/unwrap identity.  For every 32-byte
organization key `K` and fixed master secret,
`_decrypt_org_key(_encrypt_org_key(K)) == K`. -/
theorem claim_C3_wrap_unwrap (K secret iv : List Nat) (_hK : K.length = 32)
    (hiv : iv.length = 12) :
    decrypt_org_key (encrypt_org_key K secret iv) secret = some K :=
  decrypt_org_key_encrypt_org_key K secret iv hiv

theorem claim_C3_wrap_unwrap_witness :
    decrypt_org_key (encrypt_org_key key32 (strBytes "test-secret") iv12)
      (strBytes "test-secret") = some key32 :=
  claim_C3_wrap_unwrap key32 (strBytes "test-secret") iv12 (by decide) (by decide)

/-- Claim C4: unwrap failure on secret change.  For every 32-byte key `K`,
wrapping `K` under the master key derived from secret A and unwrapping
under the master key derived from a different secret B fails (the raised
`KeyUnwrapError`-class exception is modelled by `none`); it never returns
a wrong key. -/
theorem claim_C4_unwrap_wrong_secret (K sA sB iv : List Nat) (_hK : K.length = 32)
    (hA : isBytes sA) (hB : isBytes sB) (hne : sA ≠ sB) (hiv : iv.length = 12) :
    decrypt_org_key (encrypt_org_key K sA iv) sB = none :=
  decrypt_org_key_wrong_secret K sA sB iv hA hB hne hiv

theorem claim_C4_unwrap_wrong_secret_witness :
    decrypt_org_key (encrypt_org_key key32 (strBytes "secret-a") iv12)
      (strBytes "secret-b") = none :=
  claim_C4_unwrap_wrong_secret key32 (strBytes "secret-a") (strBytes "secret-b") iv12
    (by decide) (by decide) (by decide) (by decide) (by decide)

/-- Claim C5: file tamper detection.  For every plaintext `p` and 32-byte
key `k`, flipping any single bit of the ciphertext or of the tag produced
by `encrypt_file(p, k)` makes `decrypt_file` fail with an authentication
error (`none`); it never returns altered plaintext and never falls back. -/
theorem claim_C5_tamper (p k iv : List Nat) (j i : Nat) (hp : isBytes p)
    (_hk : isBytes k) (_hk32 : k.length = 32) (hi : i < 8) :
    (j < p.length →
      decrypt_file (flipBit (encrypt_file p k iv).1 j i) iv
        (encrypt_file p k iv).2.2 k = none) ∧
    (j < 16 →
      decrypt_file (encrypt_file p k iv).1 iv
        (flipBit (encrypt_file p k iv).2.2 j i) k = none) :=
  ⟨fun hj => decrypt_file_flip_ct p k iv j i hp hj hi,
   fun hj => decrypt_file_flip_tag p k iv j i hj⟩

theorem claim_C5_tamper_witness :
    decrypt_file (flipBit (encrypt_file [1, 2, 3] key32 iv12).1 0 0) iv12
      (encrypt_file [1, 2, 3] key32 iv12).2.2 key32 = none ∧
    decrypt_file (encrypt_file [1, 2, 3] key32 iv12).1 iv12
      (flipBit (encrypt_file [1, 2, 3] key32 iv12).2.2 0 0) key32 = none :=
  ⟨(claim_C5_tamper [1, 2, 3] key32 iv12 0 0 (by decide) (by decide) (by decide)
      (by decide)).1 (by decide),
   (claim_C5_tamper [1, 2, 3] key32 iv12 0 0 (by decide) (by decide) (by decide)
      (by decide)).2 (by decide)⟩

/-- Claim C6: file-version dispatch.  With `encryption_version = 2` the
server stores the uploaded bytes exactly as received and returns the stored
bytes exactly as stored, performing no cryptographic operation; with
`encryption_version = 1` upload encrypts with `encrypt_file` under the
organization key and download decrypts with `decrypt_file`, recovering the
uploaded content. -/
theorem claim_C6_version_dispatch :
    (∀ content org_key iv : List Nat,
      upload_file_payload 2 content org_key iv = ⟨content, [], []⟩) ∧
    (∀ stored iv_b64 tag_b64 org_key : List Nat,
      download_file_response 2 stored iv_b64 tag_b64 org_key = some stored) ∧
    (∀ content org_key iv : List Nat,
      download_file_response 1 (upload_file_payload 1 content org_key iv).stored
        (upload_file_payload 1 content org_key iv).iv_b64
        (upload_file_payload 1 content org_key iv).tag_b64 org_key = some content) :=
  ⟨fun _ _ _ => by simp [upload_file_payload],
   fun _ _ _ _ => by simp [download_file_response],
   upload_download_v1⟩

/-- Claim C7: pending-members query exactness.  A user is in
`get_pending_key_members(db, org)` exactly when they are in the user table,
have a membership row for the organization, have a non-null public key, and
have no member-key-wrap row for the organization — no false positives or
negatives; the query is a pure existence check (no decryption). -/
theorem claim_C7_pending_members (db : AuthDB) (org_id : Nat) (u : UserRec) :
    u ∈ get_pending_key_members db org_id ↔
      u ∈ db.users ∧
      (∃ m ∈ db.memberships, m.user_id = u.id ∧ m.org_id = org_id) ∧
      u.public_key ≠ none ∧
      ¬∃ k ∈ db.org_member_keys, k.org_id = org_id ∧ k.user_id = u.id := by
  simp only [get_pending_key_members, List.mem_filter, Bool.and_eq_true, Bool.not_eq_true',
    List.any_eq_true, List.any_eq_false, Bool.and_eq_false_iff, beq_iff_eq,
    Option.isSome_iff_ne_none, ne_eq, and_congr_right_iff]
  intro _
  aesop

/-- Claim C8: member-key upsert invariant.  Starting from any member-key
table satisfying the per-pair uniqueness constraint, after any sequence of
`store_org_key` upserts the table still has at most one row per
(organization, user) pair, and for every pair targeted by some call the
table holds exactly one row for that pair, carrying the blob of the most
recent call. -/
theorem claim_C8_upsert (rows : List OrgMemberKeyRec) (calls : List StoreCall)
    (hu : pairUnique rows) :
    pairUnique (applyCalls rows calls) ∧
    ∀ o u b, lastCallFor calls o u = some b →
      rowsForPair (applyCalls rows calls) o u = [⟨o, u, b⟩] :=
  ⟨applyCalls_pairUnique calls rows hu,
   fun o u b h => applyCalls_lastCall calls rows o u b hu h⟩

theorem claim_C8_upsert_witness :
    pairUnique (applyCalls [] [⟨1, 2, [10]⟩, ⟨1, 2, [20]⟩]) ∧
    rowsForPair (applyCalls [] [⟨1, 2, [10]⟩, ⟨1, 2, [20]⟩]) 1 2 = [⟨1, 2, [20]⟩] :=
  ⟨(claim_C8_upsert [] [⟨1, 2, [10]⟩, ⟨1, 2, [20]⟩] (by decide)).1,
   (claim_C8_upsert [] [⟨1, 2, [10]⟩, ⟨1, 2, [20]⟩] (by decide)).2 1 2 [20] (by decide)⟩

/-- Claim C9 counterexample: the migration is not idempotent as claimed.
The sensitive value `"1"` (one UTF-8 byte) is encrypted by a first pass to
a base64 string of exactly 40 characters, so the second pass's
"decodes as base64 AND length > 40" heuristic does **not** classify it as
already encrypted, and the second pass re-encrypts (double-encrypts) it
instead of leaving it unchanged. -/
theorem claim_C9_counterexample :
    migrateFieldValue key32 iv12 (encrypt_field [49] key32 iv12) ≠
      encrypt_field [49] key32 iv12 :=
  (migrateFieldValue_reencrypts_short [49] key32 iv12 key32 iv12 (by decide) (by decide)
    (by decide) (by decide)).2

/-- Claim C9 (amended): migration idempotence holds for sufficiently long
values.  For every sensitive field value of at least 3 UTF-8 bytes
encrypted by a first pass, the second pass's "decodes as base64 AND
length > 40" heuristic classifies the stored ciphertext (length ≥ 44 > 40)
as already encrypted and skips it, leaving it unchanged; values of 1 or 2
UTF-8 bytes encrypt to exactly 40 base64 characters and are re-encrypted
(see the counterexample). -/
theorem claim_C9_idempotent_amended (v k1 iv1 k2 iv2 : List Nat) (hv : v ≠ [])
    (hlen : 3 ≤ v.length) (hiv1 : iv1.length = 12) :
    migrateFieldValue k2 iv2 (encrypt_field v k1 iv1) = encrypt_field v k1 iv1 :=
  migrateFieldValue_skips v k1 iv1 k2 iv2 hv hlen hiv1

theorem claim_C9_idempotent_amended_witness :
    migrateFieldValue key32B iv12 (encrypt_field [49, 50, 51] key32 iv12) =
      encrypt_field [49, 50, 51] key32 iv12 :=
  claim_C9_idempotent_amended [49, 50, 51] key32 iv12 key32B iv12 (by decide) (by decide)
    (by decide)

/-- Claim C10: empty-value pass-through.  For every key, `encrypt_field`
applied to the empty (falsy) string returns it unchanged without encrypting,
and `decrypt_field` applied to the empty string returns it unchanged without
attempting decryption. -/
theorem claim_C10_empty_passthrough (k iv : List Nat) :
    encrypt_field [] k iv = [] ∧ decrypt_field [] k = [] :=
  ⟨rfl, rfl⟩

end FamilyVault
